import Mathlib

/-! # libslim disk I/O adapter (`source/diskio.c`)

A shallow embedding of the FatFs low-level disk layer of libslim: the
timestamp encoder `get_fattime`, and the sector-cached `disk_read` /
`disk_write` pair together with the drive registry and the block devices
they talk to.

Conventions.
* C `int` fields of `struct tm` are `Int`; the packed `DWORD` is a `Nat`
  reduced modulo `2 ^ 32`.
* A C buffer is a function from byte offsets to byte values (`Mem`); a
  pointer into a buffer is the buffer together with an offset.
* `LBA_t` sector arithmetic wraps modulo `2 ^ 32`.
* The state the C code keeps in globals and in the outside world (the
  registered devices, `__cache`, `working_buf`) is an explicit `World`.
-/

namespace Slim

/-! ## Timestamp encoder -/

/-- The fields of `struct tm` that `get_fattime` reads (all C `int`). -/
structure Tm where
  tm_sec : Int
  tm_min : Int
  tm_hour : Int
  tm_mday : Int
  tm_mon : Int
  tm_year : Int

def MAX_HOUR : Int := 23
def MAX_MINUTE : Int := 59
def MAX_SECOND : Int := 59
def MAX_MONTH : Int := 11
def MIN_MONTH : Int := 0
def MAX_DAY : Int := 31
def MIN_DAY : Int := 1

/-- The C expression `x & (2 ^ bits - 1)` on a two's-complement `int`: the
low `bits` bits of `x`, a natural number below `2 ^ bits`. -/
def maskBits (x : Int) (bits : Nat) : Nat := (x % (2 ^ bits : Int)).toNat

/-- The value `get_fattime` packs once every range check has passed. -/
def packTime (t : Tm) : Nat :=
  ((maskBits (t.tm_year - 80) 7 <<< 25) |||
   (maskBits (t.tm_mon + 1) 4 <<< 21) |||
   (maskBits t.tm_mday 5 <<< 16) |||
   (maskBits t.tm_hour 5 <<< 11) |||
   (maskBits t.tm_min 6 <<< 5) |||
   maskBits (t.tm_sec / 2) 5) % 2 ^ 32

/-- The function `get_fattime`. The argument is what the clock delivers:
`none` when `time` returns `(time_t)-1`, otherwise the broken-down time
`localtime_r` fills in. -/
def get_fattime (clock : Option Tm) : Nat :=
  match clock with
  | none => 0
  | some t =>
    if t.tm_hour < 0 ∨ t.tm_hour > MAX_HOUR then 0
    else if t.tm_min < 0 ∨ t.tm_min > MAX_MINUTE then 0
    else if t.tm_sec < 0 ∨ t.tm_sec > MAX_SECOND then 0
    else if t.tm_mon < MIN_MONTH ∨ t.tm_mon > MAX_MONTH then 0
    else if t.tm_mday < MIN_DAY ∨ t.tm_mday > MAX_DAY then 0
    else packTime t

/-- Bits `lo .. lo + width - 1` of a packed value. -/
def bitField (v lo width : Nat) : Nat := (v >>> lo) % 2 ^ width

/-- The five range checks of `get_fattime` all pass (the year is not among
them). -/
def Tm.inRange (t : Tm) : Prop :=
  (0 ≤ t.tm_hour ∧ t.tm_hour ≤ 23) ∧ (0 ≤ t.tm_min ∧ t.tm_min ≤ 59) ∧
  (0 ≤ t.tm_sec ∧ t.tm_sec ≤ 59) ∧ (0 ≤ t.tm_mon ∧ t.tm_mon ≤ 11) ∧
  (1 ≤ t.tm_mday ∧ t.tm_mday ≤ 31)

/-- The wall-clock time 2021-06-15 13:45:30 as `localtime_r` reports it. -/
def tm20210615 : Tm :=
  { tm_sec := 30, tm_min := 45, tm_hour := 13, tm_mday := 15, tm_mon := 5, tm_year := 121 }

/-- The wall-clock time 2108-06-15 13:45:30: 128 years after 1980. -/
def tm21080615 : Tm :=
  { tm_sec := 30, tm_min := 45, tm_hour := 13, tm_mday := 15, tm_mon := 5, tm_year := 208 }

/-- A broken-down time whose hour is 24. -/
def tmHour24 : Tm :=
  { tm_sec := 30, tm_min := 45, tm_hour := 24, tm_mday := 15, tm_mon := 5, tm_year := 121 }

/-! ## Buffers, sector addresses, build configuration -/

/-- A C byte buffer seen from its base pointer: byte offset to byte value. -/
abbrev Mem := Nat → Nat

/-- The modulus of `LBA_t` arithmetic (`LBA_t` is the 32-bit `DWORD` of
FatFs, the width of the `sec_t` the block devices take). -/
def LBA_MOD : Nat := 2 ^ 32

/-- The C expression `sector + i` for `LBA_t sector` and `BYTE i`. -/
def lbaAdd (sector i : Nat) : Nat := (sector + i) % LBA_MOD

/-- The copy `memcpy (&dst[off], src, ss)` of one sector. -/
def copySector (ss : Nat) (dst : Mem) (off : Nat) (src : Mem) : Mem :=
  fun p => if off ≤ p ∧ p < off + ss then src (p - off) else dst p

/-- Compile-time configuration that `diskio.c` takes from headers that are
not part of the sources at hand: whether the cached read path is compiled
in, the sector size `FF_MAX_SS`, and the number of drive slots. -/
structure Build where
  SLIM_USE_CACHE : Bool
  FF_MAX_SS : Nat
  FF_VOLUMES : Nat

/-- The result codes of FatFs `DRESULT` that `diskio.c` returns. -/
inductive DRESULT
  | RES_OK
  | RES_ERROR
  | RES_PARERR
  deriving DecidableEq, Repr

/-! ## Sector cache (`cache.h`) -/

/-- One cached sector: its key and a copy of the sector's bytes. -/
structure CacheEntry where
  drv : Nat
  sector : Nat
  data : Mem

/-- Whether the entry is the one for `(drv, sector)`. -/
def CacheEntry.isKey (e : CacheEntry) (drv sector : Nat) : Bool :=
  e.drv == drv && e.sector == sector

/-- Modelled from the spec: the `CACHE` object of `cache.h` / `cache.c`,
which are not among the sources. A capacity fixed at creation and a bounded
store of entries, kept most recently used first. -/
structure CACHE where
  capacity : Nat
  entries : List CacheEntry

/-- Modelled from the spec: `cache_init` (absent `cache.c`), an empty cache
of the given capacity; capacity 0 disables caching. -/
def cache_init (capacity : Nat) : CACHE := { capacity := capacity, entries := [] }

/-- Whether the cache holds an entry for `(drv, sector)`. -/
def CACHE.has (c : CACHE) (drv sector : Nat) : Bool :=
  c.capacity != 0 && c.entries.any (fun e => e.isKey drv sector)

/-- What `cache_load_sector` hands back: hit or miss, the cache with its
recency order updated, and the destination buffer. -/
structure LoadOut where
  hit : Bool
  cache : CACHE
  dst : Mem

/-- Modelled from the spec: `cache_load_sector` (absent `cache.c`), the
spec's `lookup`. With capacity 0 every lookup misses. On a hit the stored
sector is copied to `&dst[off]` and the entry becomes the most recently
used one; on a miss nothing changes. -/
def cache_load_sector (ss : Nat) (c : CACHE) (drv sector : Nat) (dst : Mem) (off : Nat) :
    LoadOut :=
  if c.capacity = 0 then { hit := false, cache := c, dst := dst }
  else
    match c.entries.find? (fun e => e.isKey drv sector) with
    | some e =>
      { hit := true
        cache := { c with entries := e :: c.entries.filter (fun x => !x.isKey drv sector) }
        dst := copySector ss dst off e.data }
    | none => { hit := false, cache := c, dst := dst }

/-- Modelled from the spec: `cache_store_sector` (absent `cache.c`), the
spec's `store`. With capacity 0 it is a no-op. Otherwise the entry for the
key is inserted or replaced as the most recently used one; when the key is
new and the cache is at capacity, the least recently used entry is evicted
first. -/
def cache_store_sector (c : CACHE) (drv sector : Nat) (src : Mem) : CACHE :=
  if c.capacity = 0 then c
  else
    let rest := c.entries.filter (fun x => !x.isKey drv sector)
    let kept := if rest.length < c.capacity then rest else rest.dropLast
    { c with entries := { drv := drv, sector := sector, data := src } :: kept }

/-- Modelled from the spec: `cache_invalidate_sector` (absent `cache.c`),
the spec's `invalidate`: the entry for the key is removed if present. -/
def cache_invalidate_sector (c : CACHE) (drv sector : Nat) : CACHE :=
  { c with entries := c.entries.filter (fun x => !x.isKey drv sector) }

/-! ## Block devices and the drive registry -/

/-- How one raw device transfer ends: success, or an error reported after
`done` of the requested sectors were transferred. -/
inductive Outcome
  | ok
  | fail (done : Nat)
  deriving DecidableEq, Repr

/-- The boolean a raw transfer returns. -/
def Outcome.isOk : Outcome → Bool
  | Outcome.ok => true
  | Outcome.fail _ => false

/-- The number of sectors a raw transfer of `count` sectors moved. -/
def Outcome.sectors : Outcome → Nat → Nat
  | Outcome.ok, count => count
  | Outcome.fail done, count => min done count

/-- The medium behind a `DISC_INTERFACE`: the bytes of every sector. -/
structure Disc where
  data : Nat → Mem

/-- What the device's `readSectors (sector, count, buf)` leaves in `buf`
after moving `done` sectors. -/
def Disc.readInto (ss : Nat) (d : Disc) (sector done : Nat) (buf : Mem) : Mem :=
  fun p => if p < done * ss then d.data (lbaAdd sector (p / ss)) (p % ss) else buf p

/-- The medium after the device's `writeSectors (sector, count, buf)` moved
`done` sectors: sector `sector + i` takes bytes `i * ss ..` of `buf`. -/
def Disc.writeFrom (ss : Nat) (d : Disc) (sector done : Nat) (buf : Mem) : Disc :=
  (List.range done).foldl
    (fun m i =>
      { data := fun s j =>
          if s = lbaAdd sector i ∧ j < ss then buf (i * ss + j) else m.data s j })
    d

/-- A raw device transfer, as a test double would count it. -/
inductive DevCall
  | read (drv sector count : Nat)
  | write (drv sector count : Nat)
  deriving DecidableEq, Repr

/-- Everything `diskio.c` acts on: the registered devices, the global
`__cache`, the static `working_buf`, the outcomes of the raw transfers still
to come (success once the list is used up), and the raw transfers issued so
far. -/
structure World where
  disc : Nat → Option Disc
  cache : CACHE
  working_buf : Mem
  script : List Outcome
  log : List DevCall

/-- One raw transfer is issued: it is logged and takes the next outcome. -/
def World.transfer (w : World) (c : DevCall) : Outcome × World :=
  match w.script with
  | [] => (Outcome.ok, { w with log := w.log ++ [c] })
  | o :: rest => (o, { w with script := rest, log := w.log ++ [c] })

/-- Modelled from the spec: the macro `VALID_DISK` of the absent
`ffvolumes.h`, the spec's `isValidDrive`: the index is one of the supported
drive slots. -/
def VALID_DISK (b : Build) (drv : Nat) : Bool := decide (drv < b.FF_VOLUMES)

/-- Modelled from the spec: `get_disc_io` of the absent `ffvolumes.h`, the
spec's bounds-checked `getDevice`: the device mounted in the slot, if any. -/
def get_disc_io (b : Build) (w : World) (drv : Nat) : Option Disc :=
  if drv < b.FF_VOLUMES then w.disc drv else none

/-! ## The disk I/O adapter -/

/-- What a read hands back: the result code, the world, the caller's
buffer. -/
structure ReadOut where
  res : DRESULT
  world : World
  buff : Mem

/-- What a write hands back: the result code and the world. -/
structure WriteOut where
  res : DRESULT
  world : World

/-- The function `disk_read_internal`: one raw read of `count` sectors into
`buff`. -/
def disk_read_internal (b : Build) (w : World) (drv : Nat) (buff : Mem)
    (sector count : Nat) : ReadOut :=
  match get_disc_io b w drv with
  | some d =>
    let t := w.transfer (DevCall.read drv sector count)
    { res := if t.1.isOk then DRESULT.RES_OK else DRESULT.RES_ERROR
      world := t.2
      buff := d.readInto b.FF_MAX_SS sector (t.1.sectors count) buff }
  | none => { res := DRESULT.RES_PARERR, world := w, buff := buff }

/-- The body of the `for` loop of the cached `disk_read`, for sector `i` of
the request. -/
def disk_read_step (b : Build) (drv sector : Nat) (st : ReadOut) (i : Nat) : ReadOut :=
  let l := cache_load_sector b.FF_MAX_SS st.world.cache drv (lbaAdd sector i)
    st.buff (i * b.FF_MAX_SS)
  if l.hit then
    { res := DRESULT.RES_OK, world := { st.world with cache := l.cache }, buff := l.dst }
  else
    let r := disk_read_internal b { st.world with cache := l.cache } drv
      st.world.working_buf (lbaAdd sector i) 1
    let w1 : World := { r.world with working_buf := r.buff }
    let c2 := cache_store_sector w1.cache drv (lbaAdd sector i) w1.working_buf
    let l2 := cache_load_sector b.FF_MAX_SS c2 drv (lbaAdd sector i) l.dst (i * b.FF_MAX_SS)
    { res := r.res, world := { w1 with cache := l2.cache }, buff := l2.dst }

/-- The function `disk_read`. -/
def disk_read (b : Build) (w : World) (drv : Nat) (buff : Mem) (sector count : Nat) :
    ReadOut :=
  if VALID_DISK b drv then
    if b.SLIM_USE_CACHE then
      (List.range count).foldl (disk_read_step b drv sector)
        { res := DRESULT.RES_PARERR, world := w, buff := buff }
    else disk_read_internal b w drv buff sector count
  else { res := DRESULT.RES_PARERR, world := w, buff := buff }

/-- The invalidation loop of `disk_write`. -/
def invalidateRange (c : CACHE) (drv sector count : Nat) : CACHE :=
  (List.range count).foldl (fun k i => cache_invalidate_sector k drv (lbaAdd sector i)) c

/-- The function `disk_write`. -/
def disk_write (b : Build) (w : World) (drv : Nat) (buff : Mem) (sector count : Nat) :
    WriteOut :=
  match get_disc_io b w drv with
  | some d =>
    let t := w.transfer (DevCall.write drv sector count)
    let d1 := d.writeFrom b.FF_MAX_SS sector (t.1.sectors count) buff
    let w1 : World := { t.2 with disc := fun k => if k = drv then some d1 else t.2.disc k }
    { res := if t.1.isOk then DRESULT.RES_OK else DRESULT.RES_ERROR
      world :=
        if b.SLIM_USE_CACHE then
          { w1 with cache := invalidateRange w1.cache drv sector count }
        else w1 }
  | none => { res := DRESULT.RES_PARERR, world := w }

/-! ## Predicates on the state -/

/-- Every transfer still to come succeeds. -/
def AllOk (script : List Outcome) : Prop := ∀ o ∈ script, o = Outcome.ok

/-- The state of the cold-read loop after `k` iterations: the drives are
untouched, `k` single-sector reads were logged in order, and the `k` most
recently used cache entries are those of the first `k` sectors. -/
def ColdInv (w : World) (drv sector count k : Nat) (st : ReadOut) : Prop :=
  st.world.disc = w.disc ∧ st.world.cache.capacity = w.cache.capacity ∧
  st.world.log = w.log ++ (List.range k).map (fun i => DevCall.read drv (lbaAdd sector i) 1) ∧
  ∃ pre tl, st.world.cache.entries = pre ++ tl ∧ pre.length = k ∧
    (∀ e ∈ pre, ∃ i, i < k ∧ e.isKey drv (lbaAdd sector i) = true) ∧
    (∀ i, i < k → ∃ e ∈ pre, e.isKey drv (lbaAdd sector i) = true) ∧
    (∀ e ∈ tl, ∀ i, i < count → e.isKey drv (lbaAdd sector i) = false)

/-- The state of the read loop after `k` iterations over a range that was
not cached, when every raw read succeeds: the result is `RES_OK` and the
first `k` sectors of the caller's buffer hold the medium's bytes. -/
def FreshInv (b : Build) (w : World) (drv sector count : Nat) (d : Disc) (k : Nat)
    (st : ReadOut) : Prop :=
  st.world.disc = w.disc ∧ st.world.cache.capacity = w.cache.capacity ∧
  AllOk st.world.script ∧
  (∀ i, k ≤ i → i < count → st.world.cache.has drv (lbaAdd sector i) = false) ∧
  (0 < k → st.res = DRESULT.RES_OK) ∧
  (∀ i j, i < k → j < b.FF_MAX_SS →
    st.buff (i * b.FF_MAX_SS + j) = d.data (lbaAdd sector i) j)

/-- The cache holds, for every mounted drive, only bytes the drive's medium
holds at the entry's sector. -/
def Coherent (b : Build) (w : World) : Prop :=
  ∀ e ∈ w.cache.entries, ∀ d, get_disc_io b w e.drv = some d →
    ∀ j, j < b.FF_MAX_SS → e.data j = d.data e.sector j

/-! ## Sample configurations -/

/-- The cached build with 512-byte sectors and two drive slots. -/
def cachedBuild : Build := { SLIM_USE_CACHE := true, FF_MAX_SS := 512, FF_VOLUMES := 2 }

/-- A buffer of zero bytes. -/
def zeroMem : Mem := fun _ => 0

/-- A medium none of whose bytes is zero. -/
def sampleDisc : Disc := { data := fun s j => (s + j) % 255 + 1 }

/-- A caller buffer none of whose bytes is zero. -/
def sampleBuf : Mem := fun p => 255 - p % 255

/-- A world with `sampleDisc` mounted as drive 0, nothing mounted as drive
1, a fresh cache of the given capacity, a zeroed `working_buf` and the given
transfer outcomes. -/
def sampleWorld (capacity : Nat) (script : List Outcome) : World :=
  { disc := fun k => if k = 0 then some sampleDisc else none
    cache := cache_init capacity
    working_buf := zeroMem
    script := script
    log := [] }

/-- The world `sampleWorld 2 []` after sectors 100 and 101 of drive 0 were
read, and so cached, with the given transfer outcomes to come. -/
def warmWorld (script : List Outcome) : World :=
  { (disk_read cachedBuild (sampleWorld 2 []) 0 zeroMem 100 2).world with script := script }

/-- The world after `disk_read (0, buf, 100, 1)` whose raw read failed. -/
def afterFailedRead : World :=
  (disk_read cachedBuild (sampleWorld 1 [Outcome.fail 0]) 0 zeroMem 100 1).world

/-- The world after `disk_read (1, buf, 7, 1)` on drive slot 1, which is not
mounted. -/
def afterUnmountedRead : World :=
  (disk_read cachedBuild (sampleWorld 1 []) 1 zeroMem 7 1).world

/-- The world `sampleWorld 2 []` after sector 101 of drive 0 was read, and
so cached, with the given transfer outcomes to come. -/
def halfWarmWorld (script : List Outcome) : World :=
  { (disk_read cachedBuild (sampleWorld 2 []) 0 zeroMem 101 1).world with script := script }

/-! # Theorems -/

/-! ### Arithmetic of the packing -/

theorem maskBits_lt (x : Int) (bits : Nat) : maskBits x bits < 2 ^ bits := by
  unfold maskBits
  have hpos : (0 : Int) < 2 ^ bits := by positivity
  have h1 : x % (2 ^ bits : Int) < 2 ^ bits := Int.emod_lt_of_pos x hpos
  have h0 : 0 ≤ x % (2 ^ bits : Int) := Int.emod_nonneg x (ne_of_gt hpos)
  have : ((x % (2 ^ bits : Int)).toNat : Int) < ((2 ^ bits : Nat) : Int) := by
    rw [Int.toNat_of_nonneg h0]; push_cast; exact h1
  exact_mod_cast this

theorem maskBits_of_range (x : Int) (bits : Nat) (h0 : 0 ≤ x) (h1 : x < 2 ^ bits) :
    (maskBits x bits : Int) = x := by
  unfold maskBits
  rw [Int.emod_eq_of_lt h0 h1, Int.toNat_of_nonneg h0]

/-- Six fields that fit their widths are packed without overlap, so the
packed word is their weighted sum. -/
theorem pack_eq_sum (y mo d h mi s : Nat) (hmo : mo < 16) (hd : d < 32)
    (hh : h < 32) (hmi : mi < 64) (hs : s < 32) :
    (y <<< 25) ||| (mo <<< 21) ||| (d <<< 16) ||| (h <<< 11) ||| (mi <<< 5) ||| s
      = y * 2 ^ 25 + mo * 2 ^ 21 + d * 2 ^ 16 + h * 2 ^ 11 + mi * 2 ^ 5 + s := by
  have e1 : (mi <<< 5) ||| s = mi * 2 ^ 5 + s := by
    rw [Nat.shiftLeft_eq, Nat.mul_comm mi, ← Nat.mul_add_lt_is_or (by omega) mi]
  have e2 : (h <<< 11) ||| (mi * 2 ^ 5 + s) = h * 2 ^ 11 + (mi * 2 ^ 5 + s) := by
    rw [Nat.shiftLeft_eq, Nat.mul_comm h, ← Nat.mul_add_lt_is_or (by omega) h]
  have e3 : (d <<< 16) ||| (h * 2 ^ 11 + (mi * 2 ^ 5 + s))
      = d * 2 ^ 16 + (h * 2 ^ 11 + (mi * 2 ^ 5 + s)) := by
    rw [Nat.shiftLeft_eq, Nat.mul_comm d, ← Nat.mul_add_lt_is_or (by omega) d]
  have e4 : (mo <<< 21) ||| (d * 2 ^ 16 + (h * 2 ^ 11 + (mi * 2 ^ 5 + s)))
      = mo * 2 ^ 21 + (d * 2 ^ 16 + (h * 2 ^ 11 + (mi * 2 ^ 5 + s))) := by
    rw [Nat.shiftLeft_eq, Nat.mul_comm mo, ← Nat.mul_add_lt_is_or (by omega) mo]
  have e5 : (y <<< 25) ||| (mo * 2 ^ 21 + (d * 2 ^ 16 + (h * 2 ^ 11 + (mi * 2 ^ 5 + s))))
      = y * 2 ^ 25 + (mo * 2 ^ 21 + (d * 2 ^ 16 + (h * 2 ^ 11 + (mi * 2 ^ 5 + s)))) := by
    rw [Nat.shiftLeft_eq, Nat.mul_comm y, ← Nat.mul_add_lt_is_or (by omega) y]
  rw [Nat.lor_assoc, Nat.lor_assoc, Nat.lor_assoc, Nat.lor_assoc, e1, e2, e3, e4, e5]
  omega

/-- With the five checked fields in range, `get_fattime` returns the
weighted sum of its six fields. -/
theorem get_fattime_eq_sum (t : Tm) (h : t.inRange) :
    get_fattime (some t)
      = maskBits (t.tm_year - 80) 7 * 2 ^ 25 + (t.tm_mon + 1).toNat * 2 ^ 21
        + t.tm_mday.toNat * 2 ^ 16 + t.tm_hour.toNat * 2 ^ 11 + t.tm_min.toNat * 2 ^ 5
        + (t.tm_sec / 2).toNat := by
  obtain ⟨⟨hh0, hh1⟩, ⟨hm0, hm1⟩, ⟨hs0, hs1⟩, ⟨hmo0, hmo1⟩, ⟨hd0, hd1⟩⟩ := h
  have hy := maskBits_lt (t.tm_year - 80) 7
  have emo := maskBits_of_range (t.tm_mon + 1) 4 (by omega) (by norm_num; omega)
  have ed := maskBits_of_range t.tm_mday 5 (by omega) (by norm_num; omega)
  have eh := maskBits_of_range t.tm_hour 5 (by omega) (by norm_num; omega)
  have emi := maskBits_of_range t.tm_min 6 (by omega) (by norm_num; omega)
  have es := maskBits_of_range (t.tm_sec / 2) 5 (by omega) (by norm_num; omega)
  have c1 : ¬ (t.tm_hour < 0 ∨ t.tm_hour > MAX_HOUR) := by unfold MAX_HOUR; omega
  have c2 : ¬ (t.tm_min < 0 ∨ t.tm_min > MAX_MINUTE) := by unfold MAX_MINUTE; omega
  have c3 : ¬ (t.tm_sec < 0 ∨ t.tm_sec > MAX_SECOND) := by unfold MAX_SECOND; omega
  have c4 : ¬ (t.tm_mon < MIN_MONTH ∨ t.tm_mon > MAX_MONTH) := by
    unfold MIN_MONTH MAX_MONTH; omega
  have c5 : ¬ (t.tm_mday < MIN_DAY ∨ t.tm_mday > MAX_DAY) := by
    unfold MIN_DAY MAX_DAY; omega
  simp only [get_fattime, if_neg c1, if_neg c2, if_neg c3, if_neg c4, if_neg c5, packTime]
  rw [pack_eq_sum _ _ _ _ _ _ (by omega) (by omega) (by omega) (by omega) (by omega)]
  omega
/-- Claim C7. For a broken-down time with `tm_year` in [80,207], `tm_mon`
in [0,11], `tm_mday` in [1,31], `tm_hour` in [0,23], `tm_min` in [0,59] and
`tm_sec` in [0,59], the value `get_fattime` returns decodes to the input:
bits 25-31 are `tm_year - 80`, bits 21-24 are `tm_mon + 1`, bits 16-20 are
`tm_mday`, bits 11-15 are `tm_hour`, bits 5-10 are `tm_min` and bits 0-4 are
`tm_sec / 2` rounded down; the value fits 32 bits. -/
theorem get_fattime_decodes (t : Tm)
    (hy : 80 ≤ t.tm_year ∧ t.tm_year ≤ 207) (hmo : 0 ≤ t.tm_mon ∧ t.tm_mon ≤ 11)
    (hd : 1 ≤ t.tm_mday ∧ t.tm_mday ≤ 31) (hh : 0 ≤ t.tm_hour ∧ t.tm_hour ≤ 23)
    (hmi : 0 ≤ t.tm_min ∧ t.tm_min ≤ 59) (hs : 0 ≤ t.tm_sec ∧ t.tm_sec ≤ 59) :
    get_fattime (some t) < 2 ^ 32 ∧
    (bitField (get_fattime (some t)) 25 7 : Int) = t.tm_year - 80 ∧
    (bitField (get_fattime (some t)) 21 4 : Int) = t.tm_mon + 1 ∧
    (bitField (get_fattime (some t)) 16 5 : Int) = t.tm_mday ∧
    (bitField (get_fattime (some t)) 11 5 : Int) = t.tm_hour ∧
    (bitField (get_fattime (some t)) 5 6 : Int) = t.tm_min ∧
    (bitField (get_fattime (some t)) 0 5 : Int) = t.tm_sec / 2 := by
  have hsum := get_fattime_eq_sum t ⟨hh, hmi, hs, hmo, hd⟩
  have ey := maskBits_of_range (t.tm_year - 80) 7 (by omega) (by norm_num; omega)
  obtain ⟨hy0, hy1⟩ := hy
  obtain ⟨hmo0, hmo1⟩ := hmo
  obtain ⟨hd0, hd1⟩ := hd
  obtain ⟨hh0, hh1⟩ := hh
  obtain ⟨hmi0, hmi1⟩ := hmi
  obtain ⟨hs0, hs1⟩ := hs
  simp only [bitField, Nat.shiftRight_eq_div_pow, hsum]
  refine ⟨?_, ?_, ?_, ?_, ?_, ?_, ?_⟩ <;> omega

/-- The wall-clock time 2021-06-15 13:45:30 packs to the fields 41, 6, 15,
13, 45, 15. -/
theorem get_fattime_decodes_witness :
    get_fattime (some tm20210615) < 2 ^ 32 ∧
    (bitField (get_fattime (some tm20210615)) 25 7 : Int) = 41 ∧
    (bitField (get_fattime (some tm20210615)) 21 4 : Int) = 6 ∧
    (bitField (get_fattime (some tm20210615)) 16 5 : Int) = 15 ∧
    (bitField (get_fattime (some tm20210615)) 11 5 : Int) = 13 ∧
    (bitField (get_fattime (some tm20210615)) 5 6 : Int) = 45 ∧
    (bitField (get_fattime (some tm20210615)) 0 5 : Int) = 15 :=
  get_fattime_decodes tm20210615 (by decide) (by decide) (by decide) (by decide)
    (by decide) (by decide)

/-- Claim C10. The sentinel 0 is unambiguous: `get_fattime` returns 0
exactly when the clock read failed or one of its five range checks (hour,
minute, second, month, day of month) rejected the time; for a time that
passes them the packed value is non-zero whatever `tm_year` is. -/
theorem get_fattime_eq_zero_iff (clock : Option Tm) :
    get_fattime clock = 0 ↔ clock = none ∨ ∃ t, clock = some t ∧ ¬ t.inRange := by
  cases clock with
  | none => simp [get_fattime]
  | some t =>
    by_cases h : t.inRange
    · have hsum := get_fattime_eq_sum t h
      obtain ⟨_, _, _, _, ⟨hd0, hd1⟩⟩ := h
      constructor
      · intro h0
        rw [hsum] at h0
        omega
      · rintro (h1 | ⟨u, hu, hn⟩)
        · cases h1
        · cases hu
          exact absurd ⟨‹_›, ‹_›, ‹_›, ‹_›, hd0, hd1⟩ hn
    · constructor
      · intro _
        exact Or.inr ⟨t, rfl, h⟩
      · intro _
        unfold Tm.inRange at h
        simp only [get_fattime, MAX_HOUR, MAX_MINUTE, MAX_SECOND, MIN_MONTH, MAX_MONTH,
          MIN_DAY, MAX_DAY]
        split_ifs <;> first | rfl | omega

/-- Claim C6, as the code has it. `get_fattime` returns the sentinel 0
whenever the clock read fails or the hour is outside [0,23], the minute
outside [0,59], the second outside [0,59], the month `tm_mon + 1` outside
[1,12] or the day outside [1,31]. -/
theorem get_fattime_rejects (clock : Option Tm)
    (h : clock = none ∨ ∃ t, clock = some t ∧
      ((t.tm_hour < 0 ∨ 23 < t.tm_hour) ∨ (t.tm_min < 0 ∨ 59 < t.tm_min) ∨
       (t.tm_sec < 0 ∨ 59 < t.tm_sec) ∨ (t.tm_mon + 1 < 1 ∨ 12 < t.tm_mon + 1) ∨
       (t.tm_mday < 1 ∨ 31 < t.tm_mday))) :
    get_fattime clock = 0 := by
  rcases h with h | ⟨t, ht, hr⟩
  · subst h; rfl
  · subst ht
    simp only [get_fattime, MAX_HOUR, MAX_MINUTE, MAX_SECOND, MIN_MONTH, MAX_MONTH,
      MIN_DAY, MAX_DAY]
    split_ifs <;> first | rfl | omega

/-- A failed clock read and an hour of 24 both give the sentinel. -/
theorem get_fattime_rejects_witness :
    get_fattime none = 0 ∧ get_fattime (some tmHour24) = 0 :=
  ⟨get_fattime_rejects none (Or.inl rfl),
   get_fattime_rejects (some tmHour24) (Or.inr ⟨tmHour24, rfl, Or.inl (Or.inr (by decide))⟩)⟩

/-- Claim C6 fails for the year: 2108-06-15 13:45:30 has the year offset
128, outside [0,127], and passes every check of `get_fattime`, which returns
a non-zero value whose year field is 0. -/
theorem get_fattime_year_unchecked :
    ¬ (0 ≤ tm21080615.tm_year - 80 ∧ tm21080615.tm_year - 80 ≤ 127) ∧
    get_fattime (some tm21080615) = 13594031 ∧
    get_fattime (some tm21080615) ≠ 0 ∧
    bitField (get_fattime (some tm21080615)) 25 7 = 0 := by
  decide

/-! ## Sector cache and disk adapter -/

theorem lbaAdd_inj (s i j : Nat) (hi : i < LBA_MOD) (hj : j < LBA_MOD)
    (h : lbaAdd s i = lbaAdd s j) : i = j := by
  unfold lbaAdd LBA_MOD at *
  omega

theorem lbaAdd_lt (s i : Nat) : lbaAdd s i < LBA_MOD := by
  unfold lbaAdd LBA_MOD
  omega

/-- An invariant that every loop iteration preserves holds after a loop
over `0 .. n - 1`. -/
theorem foldl_range_inv {α : Type} (f : α → Nat → α) (P : Nat → α → Prop) (a : α) (n : Nat)
    (h0 : P 0 a) (hstep : ∀ k x, k < n → P k x → P (k + 1) (f x k)) :
    P n ((List.range n).foldl f a) := by
  induction n with
  | zero => simpa using h0
  | succ m ih =>
    rw [List.range_succ, List.foldl_append]
    simp only [List.foldl_cons, List.foldl_nil]
    exact hstep m _ (Nat.lt_succ_self m)
      (ih (fun k x hk hx => hstep k x (Nat.lt_succ_of_lt hk) hx))

theorem isKey_iff (e : CacheEntry) (d s : Nat) :
    e.isKey d s = true ↔ e.drv = d ∧ e.sector = s := by
  simp [CacheEntry.isKey]

theorem has_iff (c : CACHE) (d s : Nat) :
    c.has d s = true ↔ c.capacity ≠ 0 ∧ ∃ e ∈ c.entries, e.isKey d s = true := by
  simp [CACHE.has]

theorem has_eq_false_iff (c : CACHE) (d s : Nat) :
    c.has d s = false ↔ c.capacity = 0 ∨ ∀ e ∈ c.entries, e.isKey d s = false := by
  rw [← Bool.not_eq_true, has_iff]
  constructor
  · intro h
    by_cases hc : c.capacity = 0
    · exact Or.inl hc
    · refine Or.inr (fun e he => ?_)
      cases hk : e.isKey d s
      · rfl
      · exact absurd ⟨hc, e, he, hk⟩ h
  · rintro (h | h) ⟨hc, e, he, hk⟩
    · exact hc h
    · rw [h e he] at hk
      cases hk

/-- A lookup hits exactly when the cache holds the key. -/
theorem load_hit (ss : Nat) (c : CACHE) (d s : Nat) (dst : Mem) (off : Nat) :
    (cache_load_sector ss c d s dst off).hit = c.has d s := by
  unfold cache_load_sector
  by_cases hc : c.capacity = 0
  · simp [hc, CACHE.has]
  · rw [if_neg hc]
    cases hf : c.entries.find? (fun e => e.isKey d s) with
    | none =>
      simp only
      symm
      rw [has_eq_false_iff]
      right
      intro e he
      have := List.find?_eq_none.mp hf e he
      simpa using this
    | some e =>
      simp only
      symm
      rw [has_iff]
      exact ⟨hc, e, List.mem_of_find?_eq_some hf, by simpa using List.find?_some hf⟩

/-- A missing lookup changes neither the cache nor the buffer. -/
theorem load_miss (ss : Nat) (c : CACHE) (d s : Nat) (dst : Mem) (off : Nat)
    (h : c.has d s = false) :
    cache_load_sector ss c d s dst off = { hit := false, cache := c, dst := dst } := by
  have hh := load_hit ss c d s dst off
  rw [h] at hh
  unfold cache_load_sector at hh ⊢
  by_cases hc : c.capacity = 0
  · simp [hc]
  · rw [if_neg hc] at hh ⊢
    cases hf : c.entries.find? (fun e => e.isKey d s) with
    | none => rfl
    | some e => rw [hf] at hh; simp at hh

theorem mem_invalidate (c : CACHE) (d s : Nat) (e : CacheEntry) :
    e ∈ (cache_invalidate_sector c d s).entries ↔ e ∈ c.entries ∧ e.isKey d s = false := by
  simp [cache_invalidate_sector, List.mem_filter]

theorem invalidateRange_succ (c : CACHE) (d s n : Nat) :
    invalidateRange c d s (n + 1)
      = cache_invalidate_sector (invalidateRange c d s n) d (lbaAdd s n) := by
  unfold invalidateRange
  rw [List.range_succ, List.foldl_append]
  rfl

theorem invalidateRange_capacity (c : CACHE) (d s n : Nat) :
    (invalidateRange c d s n).capacity = c.capacity := by
  induction n with
  | zero => rfl
  | succ m ih => rw [invalidateRange_succ]; exact ih

theorem mem_invalidateRange (c : CACHE) (d s n : Nat) (e : CacheEntry) :
    e ∈ (invalidateRange c d s n).entries ↔
      e ∈ c.entries ∧ ∀ i, i < n → e.isKey d (lbaAdd s i) = false := by
  induction n with
  | zero => simp [invalidateRange]
  | succ m ih =>
    rw [invalidateRange_succ, mem_invalidate, ih]
    constructor
    · rintro ⟨⟨h1, h2⟩, h3⟩
      refine ⟨h1, fun i hi => ?_⟩
      rcases Nat.lt_succ_iff_lt_or_eq.mp hi with h | h
      · exact h2 i h
      · rw [h]; exact h3
    · rintro ⟨h1, h2⟩
      exact ⟨⟨h1, fun i hi => h2 i (Nat.lt_succ_of_lt hi)⟩, h2 m (Nat.lt_succ_self m)⟩

/-- After the invalidation loop no key of the range is cached. -/
theorem invalidateRange_has (c : CACHE) (d s n i : Nat) (hi : i < n) :
    (invalidateRange c d s n).has d (lbaAdd s i) = false := by
  rw [has_eq_false_iff]
  right
  intro e he
  exact ((mem_invalidateRange c d s n e).mp he).2 i hi

/-- The invalidation loop only removes entries. -/
theorem invalidateRange_has_of (c : CACHE) (d s n d1 s1 : Nat)
    (h : (invalidateRange c d s n).has d1 s1 = true) : c.has d1 s1 = true := by
  rw [has_iff] at h ⊢
  obtain ⟨hc, e, he, hk⟩ := h
  rw [invalidateRange_capacity] at hc
  exact ⟨hc, e, ((mem_invalidateRange c d s n e).mp he).1, hk⟩

/-! ### Raw transfers -/

theorem transfer_cache (w : World) (c : DevCall) : (w.transfer c).2.cache = w.cache := by
  unfold World.transfer; cases w.script <;> rfl

theorem transfer_disc (w : World) (c : DevCall) : (w.transfer c).2.disc = w.disc := by
  unfold World.transfer; cases w.script <;> rfl

theorem transfer_working_buf (w : World) (c : DevCall) :
    (w.transfer c).2.working_buf = w.working_buf := by
  unfold World.transfer; cases w.script <;> rfl

theorem transfer_log (w : World) (c : DevCall) : (w.transfer c).2.log = w.log ++ [c] := by
  unfold World.transfer; cases w.script <;> rfl

theorem transfer_script (w : World) (c : DevCall) : (w.transfer c).2.script = w.script.tail := by
  unfold World.transfer; cases w.script <;> rfl

theorem transfer_outcome (w : World) (c : DevCall) :
    (w.transfer c).1 = w.script.headD Outcome.ok := by
  unfold World.transfer; cases w.script <;> rfl

theorem AllOk.head {script : List Outcome} (h : AllOk script) :
    script.headD Outcome.ok = Outcome.ok := by
  cases script with
  | nil => rfl
  | cons o r => exact h o (List.mem_cons_self o r)

theorem AllOk.tail {script : List Outcome} (h : AllOk script) : AllOk script.tail := by
  cases script with
  | nil => exact h
  | cons o r => exact fun x hx => h x (List.mem_cons_of_mem o hx)

/-! ### `disk_write` -/

theorem disk_write_mounted (b : Build) (w : World) (drv : Nat) (buff : Mem)
    (sector count : Nat) (d : Disc) (hb : b.SLIM_USE_CACHE = true)
    (hd : get_disc_io b w drv = some d) :
    (disk_write b w drv buff sector count).res
        = (if (w.script.headD Outcome.ok).isOk then DRESULT.RES_OK else DRESULT.RES_ERROR) ∧
    (disk_write b w drv buff sector count).world.cache
        = invalidateRange w.cache drv sector count ∧
    (disk_write b w drv buff sector count).world.disc
        = (fun k => if k = drv then
            some (d.writeFrom b.FF_MAX_SS sector
              ((w.script.headD Outcome.ok).sectors count) buff)
          else w.disc k) ∧
    (disk_write b w drv buff sector count).world.script = w.script.tail ∧
    (disk_write b w drv buff sector count).world.working_buf = w.working_buf := by
  unfold disk_write
  rw [hd]
  simp only [hb, if_true, transfer_outcome, transfer_cache, transfer_disc, transfer_script,
    transfer_working_buf, and_self]

/-- Claim C3. After `disk_write` on a mounted drive returns, whether the
device write succeeded (`RES_OK`) or failed (`RES_ERROR`), a cache lookup
for `(drv, sector + i)` misses for every `i < count`: an entry cached for
such a key before the call is gone, not updated. -/
theorem disk_write_invalidates (b : Build) (w : World) (drv : Nat) (buff : Mem)
    (sector count : Nat) (d : Disc) (hb : b.SLIM_USE_CACHE = true)
    (hd : get_disc_io b w drv = some d) :
    ((disk_write b w drv buff sector count).res = DRESULT.RES_OK ∨
      (disk_write b w drv buff sector count).res = DRESULT.RES_ERROR) ∧
    ∀ i, i < count →
      (disk_write b w drv buff sector count).world.cache.has drv (lbaAdd sector i) = false ∧
      ∀ (dst : Mem) (off : Nat),
        (cache_load_sector b.FF_MAX_SS (disk_write b w drv buff sector count).world.cache
          drv (lbaAdd sector i) dst off).hit = false := by
  obtain ⟨hres, hcache, -, -, -⟩ := disk_write_mounted b w drv buff sector count d hb hd
  refine ⟨?_, fun i hi => ?_⟩
  · rw [hres]
    cases (w.script.headD Outcome.ok).isOk
    · exact Or.inr rfl
    · exact Or.inl rfl
  · have hmiss := invalidateRange_has w.cache drv sector count i hi
    rw [hcache]
    exact ⟨hmiss, fun dst off => by rw [load_hit]; exact hmiss⟩

/-- A failed two-sector write over two cached sectors: the write reports
`RES_ERROR` and both entries are gone. -/
theorem disk_write_invalidates_witness :
    (warmWorld [Outcome.fail 1]).cache.has 0 100 = true ∧
    (warmWorld [Outcome.fail 1]).cache.has 0 101 = true ∧
    (disk_write cachedBuild (warmWorld [Outcome.fail 1]) 0 sampleBuf 100 2).res
      = DRESULT.RES_ERROR ∧
    (∀ i, i < 2 →
      (disk_write cachedBuild (warmWorld [Outcome.fail 1]) 0 sampleBuf 100 2).world.cache.has
          0 (lbaAdd 100 i) = false ∧
      ∀ (dst : Mem) (off : Nat),
        (cache_load_sector cachedBuild.FF_MAX_SS
          (disk_write cachedBuild (warmWorld [Outcome.fail 1]) 0 sampleBuf 100 2).world.cache
          0 (lbaAdd 100 i) dst off).hit = false) :=
  ⟨by decide, by decide, by decide,
   (disk_write_invalidates cachedBuild (warmWorld [Outcome.fail 1]) 0 sampleBuf 100 2
      sampleDisc rfl rfl).2⟩

/-! ### `disk_read` -/

theorem valid_of_mounted (b : Build) (w : World) (drv : Nat) (d : Disc)
    (hd : get_disc_io b w drv = some d) : VALID_DISK b drv = true := by
  unfold get_disc_io at hd
  unfold VALID_DISK
  by_cases h : drv < b.FF_VOLUMES
  · simp [h]
  · rw [if_neg h] at hd; cases hd

theorem disk_read_internal_mounted (b : Build) (w : World) (drv : Nat) (buff : Mem)
    (sector count : Nat) (d : Disc) (hd : get_disc_io b w drv = some d) :
    disk_read_internal b w drv buff sector count =
      { res := if (w.script.headD Outcome.ok).isOk then DRESULT.RES_OK else DRESULT.RES_ERROR
        world :=
          { disc := w.disc
            cache := w.cache
            working_buf := w.working_buf
            script := w.script.tail
            log := w.log ++ [DevCall.read drv sector count] }
        buff := d.readInto b.FF_MAX_SS sector ((w.script.headD Outcome.ok).sectors count) buff } := by
  unfold disk_read_internal
  rw [hd]
  unfold World.transfer
  cases w.script <;> rfl

/-- One loop iteration of `disk_read` on a cache miss, for a mounted drive:
one single-sector raw read into `working_buf`, a store, a second lookup. -/
theorem disk_read_step_miss (b : Build) (drv sector : Nat) (st : ReadOut) (i : Nat) (d : Disc)
    (hd : get_disc_io b st.world drv = some d)
    (hmiss : st.world.cache.has drv (lbaAdd sector i) = false) :
    disk_read_step b drv sector st i =
      { res :=
          if (st.world.script.headD Outcome.ok).isOk then DRESULT.RES_OK
          else DRESULT.RES_ERROR
        world :=
          { disc := st.world.disc
            cache :=
              (cache_load_sector b.FF_MAX_SS
                (cache_store_sector st.world.cache drv (lbaAdd sector i)
                  (d.readInto b.FF_MAX_SS (lbaAdd sector i)
                    ((st.world.script.headD Outcome.ok).sectors 1) st.world.working_buf))
                drv (lbaAdd sector i) st.buff (i * b.FF_MAX_SS)).cache
            working_buf :=
              d.readInto b.FF_MAX_SS (lbaAdd sector i)
                ((st.world.script.headD Outcome.ok).sectors 1) st.world.working_buf
            script := st.world.script.tail
            log := st.world.log ++ [DevCall.read drv (lbaAdd sector i) 1] }
        buff :=
          (cache_load_sector b.FF_MAX_SS
            (cache_store_sector st.world.cache drv (lbaAdd sector i)
              (d.readInto b.FF_MAX_SS (lbaAdd sector i)
                ((st.world.script.headD Outcome.ok).sectors 1) st.world.working_buf))
            drv (lbaAdd sector i) st.buff (i * b.FF_MAX_SS)).dst } := by
  have hd2 : get_disc_io b { st.world with cache := st.world.cache } drv = some d := hd
  unfold disk_read_step
  simp only [load_miss _ _ _ _ _ _ hmiss, Bool.false_eq_true, if_false]
  rw [disk_read_internal_mounted b _ drv _ _ 1 d hd2]

/-! ### `cache_store_sector` -/

theorem store_capacity (c : CACHE) (d s : Nat) (src : Mem) :
    (cache_store_sector c d s src).capacity = c.capacity := by
  unfold cache_store_sector
  by_cases hc : c.capacity = 0
  · rw [if_pos hc]
  · rw [if_neg hc]

/-- The entries after a store: the new entry in front of entries that were
there before and have another key. -/
theorem store_entries (c : CACHE) (d s : Nat) (src : Mem) (hc : c.capacity ≠ 0) :
    ∃ kept, (cache_store_sector c d s src).entries
        = { drv := d, sector := s, data := src } :: kept ∧
      (∀ e ∈ kept, e ∈ c.entries ∧ e.isKey d s = false) := by
  unfold cache_store_sector
  rw [if_neg hc]
  refine ⟨_, rfl, fun e he => ?_⟩
  have hsub : e ∈ c.entries.filter (fun x => !x.isKey d s) := by
    by_cases hl : (c.entries.filter (fun x => !x.isKey d s)).length < c.capacity
    · simpa [hl] using he
    · rw [if_neg hl] at he
      exact List.dropLast_subset _ he
  simpa [List.mem_filter] using hsub

/-- A store into an enabled cache followed by a lookup of the same key
hits, leaves the cache as the store left it and copies the stored bytes. -/
theorem load_store (ss : Nat) (c : CACHE) (d s : Nat) (src dst : Mem) (off : Nat)
    (hc : c.capacity ≠ 0) :
    cache_load_sector ss (cache_store_sector c d s src) d s dst off =
      { hit := true, cache := cache_store_sector c d s src, dst := copySector ss dst off src } := by
  obtain ⟨kept, hk, hkept⟩ := store_entries c d s src hc
  have hcap := store_capacity c d s src
  have hself : CacheEntry.isKey { drv := d, sector := s, data := src } d s = true := by
    simp [CacheEntry.isKey]
  have hfilter : kept.filter (fun x => !x.isKey d s) = kept := by
    rw [List.filter_eq_self]
    intro e he
    simp [(hkept e he).2]
  have hfind : List.find? (fun e => e.isKey d s)
      (({ drv := d, sector := s, data := src } : CacheEntry) :: kept)
        = some { drv := d, sector := s, data := src } := by
    simp [List.find?_cons, hself]
  unfold cache_load_sector
  rw [if_neg (by rw [hcap]; exact hc), hk, hfind]
  simp only [List.filter_cons, hself, Bool.not_true, Bool.false_eq_true, if_false, hfilter]
  congr 1
  cases hcs : cache_store_sector c d s src with
  | mk cap ents =>
    rw [hcs] at hk
    simp only at hk
    rw [hk]

theorem has_store_self (c : CACHE) (d s : Nat) (src : Mem) (hc : c.capacity ≠ 0) :
    (cache_store_sector c d s src).has d s = true := by
  have h := load_hit 0 (cache_store_sector c d s src) d s src 0
  rw [load_store 0 c d s src src 0 hc] at h
  exact h.symm

/-- A store adds no key but its own. -/
theorem has_store_other (c : CACHE) (d s : Nat) (src : Mem) (d1 s1 : Nat)
    (h : (cache_store_sector c d s src).has d1 s1 = true) :
    (d1 = d ∧ s1 = s) ∨ c.has d1 s1 = true := by
  by_cases hc : c.capacity = 0
  · right
    unfold cache_store_sector at h
    rwa [if_pos hc] at h
  · obtain ⟨kept, hk, hkept⟩ := store_entries c d s src hc
    rw [has_iff, hk] at h
    obtain ⟨_, e, he, hkey⟩ := h
    rcases List.mem_cons.mp he with h1 | h1
    · left
      subst h1
      have := (isKey_iff _ d1 s1).mp hkey
      exact ⟨this.1.symm, this.2.symm⟩
    · right
      rw [has_iff]
      exact ⟨hc, e, (hkept e h1).1, hkey⟩

/-- A store of a key that is not cached keeps a given prefix of the
entries, provided the prefix is shorter than the capacity: only an entry
behind it can be evicted. -/
theorem store_keeps_prefix (c : CACHE) (d s : Nat) (src : Mem) (pre tl : List CacheEntry)
    (hc : pre.length < c.capacity) (he : c.entries = pre ++ tl)
    (hnew : ∀ e ∈ c.entries, e.isKey d s = false) :
    ∃ tl1, (cache_store_sector c d s src).entries
        = { drv := d, sector := s, data := src } :: (pre ++ tl1) ∧ ∀ e ∈ tl1, e ∈ tl := by
  have hrest : c.entries.filter (fun x => !x.isKey d s) = c.entries := by
    rw [List.filter_eq_self]
    intro e hmem
    simp [hnew e hmem]
  unfold cache_store_sector
  rw [if_neg (by omega)]
  simp only [hrest]
  by_cases hl : c.entries.length < c.capacity
  · rw [if_pos hl]
    exact ⟨tl, by rw [he], fun e h => h⟩
  · rw [if_neg hl]
    have htl : tl ≠ [] := by
      intro h0
      rw [he, h0, List.append_nil] at hl
      exact hl hc
    refine ⟨tl.dropLast, ?_, fun e h => List.dropLast_subset _ h⟩
    rw [he, List.dropLast_append_of_ne_nil pre htl]

theorem get_disc_io_congr (b : Build) (w1 w2 : World) (drv : Nat) (h : w1.disc = w2.disc) :
    get_disc_io b w1 drv = get_disc_io b w2 drv := by
  unfold get_disc_io
  rw [h]

theorem coldInv_step (b : Build) (w : World) (drv sector count : Nat) (d : Disc)
    (hd : get_disc_io b w drv = some d) (hcap : count ≤ w.cache.capacity)
    (hcount : count ≤ 255) (k : Nat) (st : ReadOut) (hk : k < count)
    (h : ColdInv w drv sector count k st) :
    ColdInv w drv sector count (k + 1) (disk_read_step b drv sector st k) := by
  obtain ⟨hdisc, hcapeq, hlog, pre, tl, hent, hlen, hpre, hall, htl⟩ := h
  have hd1 : get_disc_io b st.world drv = some d := by
    rw [get_disc_io_congr b st.world w drv hdisc]; exact hd
  have hc0 : st.world.cache.capacity ≠ 0 := by omega
  have hnew : ∀ e ∈ st.world.cache.entries, e.isKey drv (lbaAdd sector k) = false := by
    intro e he
    rw [hent] at he
    rcases List.mem_append.mp he with h1 | h1
    · obtain ⟨i, hi, hkey⟩ := hpre e h1
      cases hkk : e.isKey drv (lbaAdd sector k)
      · rfl
      · exfalso
        have e1 := ((isKey_iff e _ _).mp hkey).2
        have e2 := ((isKey_iff e _ _).mp hkk).2
        have := lbaAdd_inj sector i k (by unfold LBA_MOD; omega) (by unfold LBA_MOD; omega)
          (e1.symm.trans e2)
        omega
    · exact htl e h1 k hk
  have hmiss : st.world.cache.has drv (lbaAdd sector k) = false :=
    (has_eq_false_iff _ _ _).mpr (Or.inr hnew)
  rw [disk_read_step_miss b drv sector st k d hd1 hmiss, load_store _ _ _ _ _ _ _ hc0]
  obtain ⟨tl1, hst, htl1⟩ := store_keeps_prefix st.world.cache drv (lbaAdd sector k)
    (d.readInto b.FF_MAX_SS (lbaAdd sector k)
      ((st.world.script.headD Outcome.ok).sectors 1) st.world.working_buf)
    pre tl (by omega) hent hnew
  refine ⟨hdisc, ?_, ?_, ?_⟩
  · simp only [store_capacity]; exact hcapeq
  · simp only [hlog, List.range_succ, List.map_append, List.map_cons, List.map_nil,
      List.append_assoc]
  · refine ⟨_ :: pre, tl1, by simpa using hst, by simp [hlen], ?_, ?_, ?_⟩
    · intro e he
      rcases List.mem_cons.mp he with h1 | h1
      · exact ⟨k, Nat.lt_succ_self k, by subst h1; simp [CacheEntry.isKey]⟩
      · obtain ⟨i, hi, hkey⟩ := hpre e h1
        exact ⟨i, Nat.lt_succ_of_lt hi, hkey⟩
    · intro i hi
      rcases Nat.lt_succ_iff_lt_or_eq.mp hi with h1 | h1
      · obtain ⟨e, he, hkey⟩ := hall i h1
        exact ⟨e, List.mem_cons_of_mem _ he, hkey⟩
      · subst h1
        exact ⟨_, List.mem_cons_self _ _, by simp [CacheEntry.isKey]⟩
    · intro e he
      exact htl e (htl1 e he)

/-- Claim C8. For a mounted drive and a request none of whose `count` keys
is cached, with `count` at most the cache capacity, `disk_read` issues
exactly `count` raw device reads, each of one sector, for `sector`,
`sector + 1`, ... in that order, and afterwards the cache holds an entry for
each of the `count` keys. -/
theorem disk_read_cold (b : Build) (w : World) (drv : Nat) (buff : Mem) (sector count : Nat)
    (d : Disc) (hb : b.SLIM_USE_CACHE = true) (hd : get_disc_io b w drv = some d)
    (hcount : count ≤ 255) (hcap : count ≤ w.cache.capacity)
    (hcold : ∀ i, i < count → w.cache.has drv (lbaAdd sector i) = false) :
    (disk_read b w drv buff sector count).world.log
      = w.log ++ (List.range count).map (fun i => DevCall.read drv (lbaAdd sector i) 1) ∧
    ∀ i, i < count →
      (disk_read b w drv buff sector count).world.cache.has drv (lbaAdd sector i) = true := by
  have h0 : ColdInv w drv sector count 0
      { res := DRESULT.RES_PARERR, world := w, buff := buff } := by
    refine ⟨rfl, rfl, by simp, [], w.cache.entries, by simp, rfl, by simp, by simp, ?_⟩
    intro e he i hi
    rcases (has_eq_false_iff _ _ _).mp (hcold i hi) with h1 | h1
    · omega
    · exact h1 e he
  have hinv := foldl_range_inv (disk_read_step b drv sector) (ColdInv w drv sector count)
    _ count h0 (fun k st hk h => coldInv_step b w drv sector count d hd hcap hcount k st hk h)
  have hrd : disk_read b w drv buff sector count
      = (List.range count).foldl (disk_read_step b drv sector)
          { res := DRESULT.RES_PARERR, world := w, buff := buff } := by
    unfold disk_read
    rw [valid_of_mounted b w drv d hd, if_pos rfl, hb, if_pos rfl]
  rw [hrd]
  obtain ⟨-, hcapeq, hlog, pre, tl, hent, -, -, hall, -⟩ := hinv
  refine ⟨hlog, fun i hi => ?_⟩
  obtain ⟨e, he, hkey⟩ := hall i hi
  rw [has_iff]
  exact ⟨by omega, e, by rw [hent]; exact List.mem_append_left _ he, hkey⟩

/-- The spec's case: start sector 100, count 3, cold cache of capacity 3. -/
theorem disk_read_cold_witness :
    (disk_read cachedBuild (sampleWorld 3 []) 0 zeroMem 100 3).world.log
      = [DevCall.read 0 100 1, DevCall.read 0 101 1, DevCall.read 0 102 1] ∧
    ∀ i, i < 3 →
      (disk_read cachedBuild (sampleWorld 3 []) 0 zeroMem 100 3).world.cache.has 0
        (lbaAdd 100 i) = true :=
  disk_read_cold cachedBuild (sampleWorld 3 []) 0 zeroMem 100 3 sampleDisc rfl rfl
    (by decide) (by decide) (by decide)

/-! ### Write, then read back -/

theorem writeFrom_succ (ss : Nat) (d : Disc) (sector n : Nat) (buf : Mem) :
    d.writeFrom ss sector (n + 1) buf =
      { data := fun s j =>
          if s = lbaAdd sector n ∧ j < ss then buf (n * ss + j)
          else (d.writeFrom ss sector n buf).data s j } := by
  unfold Disc.writeFrom
  rw [List.range_succ, List.foldl_append]
  rfl

/-- After a raw write of `n` sectors the medium holds, at `sector + i`, the
bytes `i * ss ..` of the written buffer. -/
theorem writeFrom_data (ss : Nat) (d : Disc) (sector : Nat) (buf : Mem) (n : Nat)
    (hn : n ≤ LBA_MOD) (i j : Nat) (hi : i < n) (hj : j < ss) :
    (d.writeFrom ss sector n buf).data (lbaAdd sector i) j = buf (i * ss + j) := by
  induction n with
  | zero => omega
  | succ m ih =>
    rw [writeFrom_succ]
    simp only
    by_cases him : i = m
    · subst him
      rw [if_pos ⟨rfl, hj⟩]
    · have hne : lbaAdd sector i ≠ lbaAdd sector m := fun h =>
        him (lbaAdd_inj sector i m (by omega) (by omega) h)
      rw [if_neg (fun h => hne h.1)]
      exact ih (by omega) (by omega)

/-- A successful single-sector raw read delivers the sector's bytes. -/
theorem readInto_one (ss : Nat) (d : Disc) (sector k : Nat) (buf : Mem) (j : Nat) (hj : j < ss) :
    d.readInto ss (lbaAdd sector k) 1 buf j = d.data (lbaAdd sector k) j := by
  unfold Disc.readInto
  rw [if_pos (by omega), Nat.div_eq_of_lt hj, Nat.mod_eq_of_lt hj]
  congr 1
  unfold lbaAdd LBA_MOD
  omega

theorem freshInv_step (b : Build) (w : World) (drv sector count : Nat) (d : Disc)
    (hd : get_disc_io b w drv = some d) (hcap : w.cache.capacity ≠ 0)
    (hcount : count ≤ 255) (k : Nat) (st : ReadOut) (hk : k < count)
    (h : FreshInv b w drv sector count d k st) :
    FreshInv b w drv sector count d (k + 1) (disk_read_step b drv sector st k) := by
  obtain ⟨hdisc, hcapeq, hok, hcold, -, hbuf⟩ := h
  have hd1 : get_disc_io b st.world drv = some d := by
    rw [get_disc_io_congr b st.world w drv hdisc]; exact hd
  have hc0 : st.world.cache.capacity ≠ 0 := by rw [hcapeq]; exact hcap
  have hmiss := hcold k (Nat.le_refl k) hk
  rw [disk_read_step_miss b drv sector st k d hd1 hmiss, load_store _ _ _ _ _ _ _ hc0,
    hok.head]
  refine ⟨hdisc, ?_, hok.tail, ?_, fun _ => rfl, ?_⟩
  · simp only [store_capacity]; exact hcapeq
  · intro i hki hi
    cases hh : (cache_store_sector st.world.cache drv (lbaAdd sector k)
        (d.readInto b.FF_MAX_SS (lbaAdd sector k) (Outcome.ok.sectors 1)
          st.world.working_buf)).has drv (lbaAdd sector i)
    · rfl
    · exfalso
      rcases has_store_other _ _ _ _ _ _ hh with h1 | h1
      · have := lbaAdd_inj sector i k (by unfold LBA_MOD; omega) (by unfold LBA_MOD; omega) h1.2
        omega
      · rw [hcold i (by omega) hi] at h1
        cases h1
  · intro i j hi hj
    simp only [copySector, Outcome.sectors]
    rcases Nat.lt_succ_iff_lt_or_eq.mp hi with h1 | h1
    · have hmul : (i + 1) * b.FF_MAX_SS ≤ k * b.FF_MAX_SS := Nat.mul_le_mul_right _ h1
      rw [Nat.add_mul, Nat.one_mul] at hmul
      rw [if_neg (by omega)]
      exact hbuf i j h1 hj
    · subst h1
      rw [if_pos (by omega), Nat.add_sub_cancel_left]
      exact readInto_one _ d sector i _ j hj

/-- A cached read of a range that is not cached, from a mounted drive with
an enabled cache and raw reads that succeed, returns `RES_OK` and fills the
caller's buffer with the medium's bytes. -/
theorem disk_read_fresh (b : Build) (w : World) (drv : Nat) (buff : Mem) (sector count : Nat)
    (d : Disc) (hb : b.SLIM_USE_CACHE = true) (hd : get_disc_io b w drv = some d)
    (hcap : w.cache.capacity ≠ 0) (hc1 : 1 ≤ count) (hcount : count ≤ 255)
    (hok : AllOk w.script)
    (hcold : ∀ i, i < count → w.cache.has drv (lbaAdd sector i) = false) :
    (disk_read b w drv buff sector count).res = DRESULT.RES_OK ∧
    ∀ i j, i < count → j < b.FF_MAX_SS →
      (disk_read b w drv buff sector count).buff (i * b.FF_MAX_SS + j)
        = d.data (lbaAdd sector i) j := by
  have h0 : FreshInv b w drv sector count d 0
      { res := DRESULT.RES_PARERR, world := w, buff := buff } :=
    ⟨rfl, rfl, hok, fun i _ hi => hcold i hi, fun h => absurd h (Nat.lt_irrefl 0),
      fun i j hi _ => absurd hi (Nat.not_lt_zero i)⟩
  have hinv := foldl_range_inv (disk_read_step b drv sector) (FreshInv b w drv sector count d)
    _ count h0 (fun k st hk h => freshInv_step b w drv sector count d hd hcap hcount k st hk h)
  have hrd : disk_read b w drv buff sector count
      = (List.range count).foldl (disk_read_step b drv sector)
          { res := DRESULT.RES_PARERR, world := w, buff := buff } := by
    unfold disk_read
    rw [valid_of_mounted b w drv d hd, if_pos rfl, hb, if_pos rfl]
  rw [hrd]
  obtain ⟨-, -, -, -, hres, hbuf⟩ := hinv
  exact ⟨hres (by omega), hbuf⟩

/-- Claim C2. For a mounted drive, `count` in 1..255, an enabled cache of
capacity at least 1 with any prior contents, and device transfers that
succeed and store what is written: `disk_write (drv, buf, sector, count)`
immediately followed by `disk_read (drv, out, sector, count)` returns
`RES_OK` and leaves `out` equal to `buf` on all `count * FF_MAX_SS` bytes. -/
theorem write_then_read (b : Build) (w : World) (drv : Nat) (buf out : Mem)
    (sector count : Nat) (d : Disc) (hb : b.SLIM_USE_CACHE = true)
    (hd : get_disc_io b w drv = some d) (hcap : 1 ≤ w.cache.capacity)
    (hc1 : 1 ≤ count) (hcount : count ≤ 255) (hok : AllOk w.script) :
    (disk_write b w drv buf sector count).res = DRESULT.RES_OK ∧
    (disk_read b (disk_write b w drv buf sector count).world drv out sector count).res
      = DRESULT.RES_OK ∧
    ∀ p, p < count * b.FF_MAX_SS →
      (disk_read b (disk_write b w drv buf sector count).world drv out sector count).buff p
        = buf p := by
  obtain ⟨hres, hcache, hdisc, hscript, -⟩ :=
    disk_write_mounted b w drv buf sector count d hb hd
  rw [hok.head] at hres hdisc
  have hvol : drv < b.FF_VOLUMES := by
    have := valid_of_mounted b w drv d hd
    simpa [VALID_DISK] using this
  have hd1 : get_disc_io b (disk_write b w drv buf sector count).world drv
      = some (d.writeFrom b.FF_MAX_SS sector count buf) := by
    unfold get_disc_io
    rw [if_pos hvol, hdisc]
    simp [Outcome.sectors]
  have hfresh := disk_read_fresh b (disk_write b w drv buf sector count).world drv out sector
    count _ hb hd1 (by rw [hcache, invalidateRange_capacity]; omega) hc1 hcount
    (by rw [hscript]; exact hok.tail)
    (fun i hi => by rw [hcache]; exact invalidateRange_has w.cache drv sector count i hi)
  refine ⟨by rw [hres]; rfl, hfresh.1, fun p hp => ?_⟩
  have hss : 0 < b.FF_MAX_SS := by
    rcases Nat.eq_zero_or_pos b.FF_MAX_SS with h | h
    · rw [h] at hp; omega
    · exact h
  have hi : p / b.FF_MAX_SS < count := Nat.div_lt_of_lt_mul (by rw [Nat.mul_comm]; exact hp)
  have hj : p % b.FF_MAX_SS < b.FF_MAX_SS := Nat.mod_lt p hss
  have hp2 : p / b.FF_MAX_SS * b.FF_MAX_SS + p % b.FF_MAX_SS = p := by
    rw [Nat.mul_comm]; exact Nat.div_add_mod p b.FF_MAX_SS
  have h1 := hfresh.2 (p / b.FF_MAX_SS) (p % b.FF_MAX_SS) hi hj
  rw [hp2] at h1
  rw [h1, writeFrom_data b.FF_MAX_SS d sector buf count (by unfold LBA_MOD; omega) _ _ hi hj,
    hp2]

/-- Two sectors written over two cached sectors read back as written. -/
theorem write_then_read_witness :
    (warmWorld []).cache.has 0 100 = true ∧
    (disk_write cachedBuild (warmWorld []) 0 sampleBuf 100 2).res = DRESULT.RES_OK ∧
    (disk_read cachedBuild (disk_write cachedBuild (warmWorld []) 0 sampleBuf 100 2).world
      0 zeroMem 100 2).res = DRESULT.RES_OK ∧
    ∀ p, p < 2 * cachedBuild.FF_MAX_SS →
      (disk_read cachedBuild (disk_write cachedBuild (warmWorld []) 0 sampleBuf 100 2).world
        0 zeroMem 100 2).buff p = sampleBuf p :=
  ⟨by decide,
   write_then_read cachedBuild (warmWorld []) 0 sampleBuf zeroMem 100 2 sampleDisc rfl rfl
    (by decide) (by decide) (by decide) (fun o ho => by cases ho)⟩

/-! ### Where the cached read path goes wrong -/

/-- Claim C1 fails on the code. A two-sector read whose first raw read
fails and whose second succeeds returns `RES_OK`: the loop overwrites `res`
on every iteration. The same happens when the failed sector is followed by
a cache hit. The caller's first sector holds the stale `working_buf`, not
the medium's bytes. -/
theorem disk_read_forgets_failure :
    (disk_read cachedBuild (sampleWorld 2 [Outcome.fail 0, Outcome.ok]) 0 sampleBuf 100 2).world.log
      = [DevCall.read 0 100 1, DevCall.read 0 101 1] ∧
    (disk_read cachedBuild (sampleWorld 2 [Outcome.fail 0]) 0 sampleBuf 100 1).res
      = DRESULT.RES_ERROR ∧
    (disk_read cachedBuild (sampleWorld 2 [Outcome.fail 0, Outcome.ok]) 0 sampleBuf 100 2).res
      = DRESULT.RES_OK ∧
    (disk_read cachedBuild (sampleWorld 2 [Outcome.fail 0, Outcome.ok]) 0 sampleBuf 100 2).buff 0
      = 0 ∧
    sampleDisc.data 100 0 = 101 ∧
    (halfWarmWorld [Outcome.fail 0]).cache.has 0 100 = false ∧
    (halfWarmWorld [Outcome.fail 0]).cache.has 0 101 = true ∧
    (disk_read cachedBuild (halfWarmWorld [Outcome.fail 0]) 0 sampleBuf 100 2).world.log
      = [DevCall.read 0 101 1, DevCall.read 0 100 1] ∧
    (disk_read cachedBuild (halfWarmWorld [Outcome.fail 0]) 0 sampleBuf 100 2).res
      = DRESULT.RES_OK := by
  decide

/-- Claim C4 fails on the code. In the cached build with a cache of
capacity 0, a one-sector read whose raw read succeeds returns `RES_OK` and
leaves the caller's buffer as it was: the sector went to `working_buf`, the
store was a no-op and the second lookup missed. -/
theorem disk_read_capacity_zero :
    (disk_read cachedBuild (sampleWorld 0 []) 0 zeroMem 100 1).world.log
      = [DevCall.read 0 100 1] ∧
    (disk_read cachedBuild (sampleWorld 0 []) 0 zeroMem 100 1).res = DRESULT.RES_OK ∧
    (disk_read cachedBuild (sampleWorld 0 []) 0 zeroMem 100 1).buff 0 = 0 ∧
    (disk_read cachedBuild (sampleWorld 0 []) 0 zeroMem 100 1).world.working_buf 0 = 101 ∧
    sampleDisc.data 100 0 = 101 := by
  decide

/-- Claim C5 fails on the code. A read whose raw read fails still stores
`working_buf` under the sector's key: from an empty cache, one failed
`disk_read` leaves an entry for (0, 100) whose first byte is 0 while the
medium holds 101, and the next `disk_read` hits it and returns `RES_OK` with
that byte, without asking the device. -/
theorem failed_read_breaks_coherence :
    Coherent cachedBuild (sampleWorld 1 [Outcome.fail 0]) ∧
    (disk_read cachedBuild (sampleWorld 1 [Outcome.fail 0]) 0 zeroMem 100 1).res
      = DRESULT.RES_ERROR ∧
    ¬ Coherent cachedBuild afterFailedRead ∧
    afterFailedRead.cache.entries.map (fun e => (e.drv, e.sector, e.data 0)) = [(0, 100, 0)] ∧
    (get_disc_io cachedBuild afterFailedRead 0).map (fun d => d.data 100 0) = some 101 ∧
    (disk_read cachedBuild afterFailedRead 0 sampleBuf 100 1).res = DRESULT.RES_OK ∧
    (disk_read cachedBuild afterFailedRead 0 sampleBuf 100 1).buff 0 = 0 ∧
    (disk_read cachedBuild afterFailedRead 0 sampleBuf 100 1).world.log
      = [DevCall.read 0 100 1] := by
  refine ⟨?_, by decide, ?_, by decide, by decide, by decide, by decide, by decide⟩
  · intro e he
    cases he
  · intro h
    have h1 := h ⟨0, 100, sampleDisc.readInto 512 (lbaAdd 100 0) 0 zeroMem⟩
      (List.mem_singleton.mpr rfl) sampleDisc rfl 0 (by decide)
    revert h1
    decide

/-- Claim C9 fails on the code. Drive slot 1 is supported and not mounted.
The first `disk_read` on it returns `RES_PARERR` and stores `working_buf`
under the key; the second hits that entry and returns `RES_OK`. No raw
device read is issued. -/
theorem disk_read_unmounted_hit :
    VALID_DISK cachedBuild 1 = true ∧
    (get_disc_io cachedBuild (sampleWorld 1 []) 1).isNone = true ∧
    (disk_read cachedBuild (sampleWorld 1 []) 1 zeroMem 7 1).res = DRESULT.RES_PARERR ∧
    (get_disc_io cachedBuild afterUnmountedRead 1).isNone = true ∧
    afterUnmountedRead.cache.has 1 7 = true ∧
    (disk_read cachedBuild afterUnmountedRead 1 zeroMem 7 1).res = DRESULT.RES_OK ∧
    (disk_read cachedBuild afterUnmountedRead 1 zeroMem 7 1).world.log = [] := by
  decide

/-- A drive index outside the supported set always gets `RES_PARERR`. -/
theorem disk_read_invalid_drive (b : Build) (w : World) (drv : Nat) (buff : Mem)
    (sector count : Nat) (h : VALID_DISK b drv = false) :
    (disk_read b w drv buff sector count).res = DRESULT.RES_PARERR := by
  unfold disk_read
  rw [h]
  rfl

/-! ### The disabled cache and the uncached build -/

theorem load_capacity_zero (ss : Nat) (c : CACHE) (d s : Nat) (dst : Mem) (off : Nat)
    (h : c.capacity = 0) :
    cache_load_sector ss c d s dst off = { hit := false, cache := c, dst := dst } :=
  load_miss ss c d s dst off ((has_eq_false_iff c d s).mpr (Or.inl h))

theorem store_capacity_zero (c : CACHE) (d s : Nat) (src : Mem) (h : c.capacity = 0) :
    cache_store_sector c d s src = c := by
  unfold cache_store_sector
  rw [if_pos h]

theorem disk_read_internal_cache (b : Build) (w : World) (drv : Nat) (buff : Mem)
    (sector count : Nat) :
    (disk_read_internal b w drv buff sector count).world.cache = w.cache := by
  unfold disk_read_internal
  cases get_disc_io b w drv with
  | none => rfl
  | some d => exact transfer_cache w _

/-- In the cached build a cache of capacity 0 keeps every byte away from
the caller: whatever the drive, the range and the device do, `disk_read`
returns the caller's buffer as it got it. -/
theorem disk_read_capacity_zero_buffer (b : Build) (w : World) (drv : Nat) (buff : Mem)
    (sector count : Nat) (hb : b.SLIM_USE_CACHE = true) (h0 : w.cache.capacity = 0) :
    (disk_read b w drv buff sector count).buff = buff := by
  unfold disk_read
  cases hv : VALID_DISK b drv
  · rfl
  · rw [if_pos rfl, hb, if_pos rfl]
    have hinv := foldl_range_inv (disk_read_step b drv sector)
      (fun _ st => st.buff = buff ∧ st.world.cache.capacity = 0)
      { res := DRESULT.RES_PARERR, world := w, buff := buff } count ⟨rfl, h0⟩
      (fun k st _ h => by
        obtain ⟨hbuf, hcap⟩ := h
        have hcap1 : (disk_read_internal b { st.world with cache := st.world.cache } drv
            st.world.working_buf (lbaAdd sector k) 1).world.cache.capacity = 0 := by
          rw [disk_read_internal_cache]; exact hcap
        unfold disk_read_step
        simp only [load_capacity_zero _ _ _ _ _ _ hcap, Bool.false_eq_true, if_false,
          store_capacity_zero _ _ _ _ hcap1, load_capacity_zero _ _ _ _ _ _ hcap1]
        exact ⟨hbuf, hcap1⟩)
    exact hinv.1

/-- A successful raw read of `count` sectors delivers every sector. -/
theorem readInto_all (ss : Nat) (d : Disc) (sector count : Nat) (buf : Mem) (i j : Nat)
    (hi : i < count) (hj : j < ss) :
    d.readInto ss sector count buf (i * ss + j) = d.data (lbaAdd sector i) j := by
  have hmul : (i + 1) * ss ≤ count * ss := Nat.mul_le_mul_right _ hi
  rw [Nat.add_mul, Nat.one_mul] at hmul
  have hdiv : (i * ss + j) / ss = i := by
    rw [Nat.add_comm, Nat.add_mul_div_right _ _ (by omega), Nat.div_eq_of_lt hj, Nat.zero_add]
  have hmod : (i * ss + j) % ss = j := by
    rw [Nat.add_comm, Nat.add_mul_mod_self_right, Nat.mod_eq_of_lt hj]
  unfold Disc.readInto
  rw [if_pos (by omega), hdiv, hmod]

/-- The build without the cache (`SLIM_USE_CACHE` off) reads straight into
the caller's buffer: for a mounted drive whose raw read succeeds `disk_read`
returns `RES_OK` and the buffer holds sector `sector + i` in bytes
`i * FF_MAX_SS ..`. -/
theorem disk_read_uncached (b : Build) (w : World) (drv : Nat) (buff : Mem)
    (sector count : Nat) (d : Disc) (hb : b.SLIM_USE_CACHE = false)
    (hd : get_disc_io b w drv = some d) (hok : AllOk w.script) :
    (disk_read b w drv buff sector count).res = DRESULT.RES_OK ∧
    (disk_read b w drv buff sector count).world.log
      = w.log ++ [DevCall.read drv sector count] ∧
    ∀ i j, i < count → j < b.FF_MAX_SS →
      (disk_read b w drv buff sector count).buff (i * b.FF_MAX_SS + j)
        = d.data (lbaAdd sector i) j := by
  unfold disk_read
  rw [valid_of_mounted b w drv d hd, if_pos rfl, hb, if_neg (by decide),
    disk_read_internal_mounted b w drv buff sector count d hd, hok.head]
  exact ⟨rfl, rfl, fun i j hi hj => readInto_all _ d sector count buff i j hi hj⟩

/-! ### Coherence, where it does hold -/

theorem mem_load (ss : Nat) (c : CACHE) (d s : Nat) (dst : Mem) (off : Nat) (e : CacheEntry)
    (he : e ∈ (cache_load_sector ss c d s dst off).cache.entries) : e ∈ c.entries := by
  unfold cache_load_sector at he
  by_cases hc : c.capacity = 0
  · rw [if_pos hc] at he; exact he
  · rw [if_neg hc] at he
    cases hf : c.entries.find? (fun x => x.isKey d s) with
    | none => rw [hf] at he; exact he
    | some x =>
      rw [hf] at he
      rcases List.mem_cons.mp he with h1 | h1
      · rw [h1]; exact List.mem_of_find?_eq_some hf
      · exact (List.mem_filter.mp h1).1

theorem mem_store (c : CACHE) (d s : Nat) (src : Mem) (e : CacheEntry)
    (he : e ∈ (cache_store_sector c d s src).entries) :
    e = { drv := d, sector := s, data := src } ∨ e ∈ c.entries := by
  by_cases hc : c.capacity = 0
  · rw [store_capacity_zero c d s src hc] at he
    exact Or.inr he
  · obtain ⟨kept, hk, hkept⟩ := store_entries c d s src hc
    rw [hk] at he
    rcases List.mem_cons.mp he with h1 | h1
    · exact Or.inl h1
    · exact Or.inr (hkept e h1).1

/-- A raw write changes no sector outside the range it moved. -/
theorem writeFrom_data_other (ss : Nat) (d : Disc) (sector : Nat) (buf : Mem) (n s : Nat)
    (hs : ∀ i, i < n → s ≠ lbaAdd sector i) :
    (d.writeFrom ss sector n buf).data s = d.data s := by
  induction n with
  | zero => rfl
  | succ m ih =>
    rw [writeFrom_succ]
    funext j
    simp only
    rw [if_neg (fun h => hs m (Nat.lt_succ_self m) h.1)]
    exact congrFun (ih (fun i hi => hs i (Nat.lt_succ_of_lt hi))) j

theorem sectors_le (o : Outcome) (count : Nat) : o.sectors count ≤ count := by
  cases o with
  | ok => exact Nat.le_refl count
  | fail done => exact Nat.min_le_right done count

/-- Write-invalidate keeps the cache coherent, whether the raw write
succeeds, fails, or fails half way. -/
theorem disk_write_coherent (b : Build) (w : World) (drv : Nat) (buff : Mem)
    (sector count : Nat) (hb : b.SLIM_USE_CACHE = true) (h : Coherent b w) :
    Coherent b (disk_write b w drv buff sector count).world := by
  cases hd : get_disc_io b w drv with
  | none =>
    unfold disk_write
    rw [hd]
    exact h
  | some d =>
    obtain ⟨-, hcache, hdisc, -, -⟩ := disk_write_mounted b w drv buff sector count d hb hd
    intro e he d1 hd1 j hj
    rw [hcache] at he
    obtain ⟨hold, hkeys⟩ := (mem_invalidateRange w.cache drv sector count e).mp he
    unfold get_disc_io at hd1
    by_cases hv : e.drv < b.FF_VOLUMES
    · rw [if_pos hv, hdisc] at hd1
      beta_reduce at hd1
      by_cases hdrv : e.drv = drv
      · rw [if_pos hdrv] at hd1
        have hd1 := (Option.some.inj hd1).symm
        have hne : ∀ i, i < (w.script.headD Outcome.ok).sectors count →
            e.sector ≠ lbaAdd sector i := by
          intro i hi hs
          have hk := hkeys i (Nat.lt_of_lt_of_le hi (sectors_le _ count))
          rw [(isKey_iff e drv (lbaAdd sector i)).mpr ⟨hdrv, hs⟩] at hk
          cases hk
        rw [hd1, writeFrom_data_other b.FF_MAX_SS d sector buff _ e.sector hne]
        exact h e hold d (by rw [hdrv]; exact hd) j hj
      · rw [if_neg hdrv] at hd1
        exact h e hold d1 (by unfold get_disc_io; rw [if_pos hv]; exact hd1) j hj
    · rw [if_neg hv] at hd1
      cases hd1

/-- One iteration of the read loop keeps the cache coherent when the raw
read it may issue succeeds. -/
theorem disk_read_step_coherent (b : Build) (drv sector : Nat) (st : ReadOut) (i : Nat)
    (hok : AllOk st.world.script) (h : Coherent b st.world) :
    (disk_read_step b drv sector st i).world.disc = st.world.disc ∧
    AllOk (disk_read_step b drv sector st i).world.script ∧
    Coherent b (disk_read_step b drv sector st i).world := by
  cases hh : st.world.cache.has drv (lbaAdd sector i) with
  | true =>
    have hhit := load_hit b.FF_MAX_SS st.world.cache drv (lbaAdd sector i) st.buff
      (i * b.FF_MAX_SS)
    rw [hh] at hhit
    have hstep : disk_read_step b drv sector st i =
        { res := DRESULT.RES_OK
          world := { st.world with cache := (cache_load_sector b.FF_MAX_SS st.world.cache drv
            (lbaAdd sector i) st.buff (i * b.FF_MAX_SS)).cache }
          buff := (cache_load_sector b.FF_MAX_SS st.world.cache drv
            (lbaAdd sector i) st.buff (i * b.FF_MAX_SS)).dst } := by
      unfold disk_read_step
      simp only [hhit, if_true]
    rw [hstep]
    refine ⟨rfl, hok, fun e he d1 hd1 j hj => ?_⟩
    exact h e (mem_load _ _ _ _ _ _ e he) d1 hd1 j hj
  | false =>
    cases hd : get_disc_io b st.world drv with
    | some d =>
      rw [disk_read_step_miss b drv sector st i d hd hh]
      refine ⟨rfl, hok.tail, fun e he d1 hd1 j hj => ?_⟩
      have hd1 : get_disc_io b st.world e.drv = some d1 := hd1
      rcases mem_store _ _ _ _ e (mem_load _ _ _ _ _ _ e he) with h1 | h1
      · subst h1
        have hdd : d1 = d := Option.some.inj (hd1.symm.trans hd)
        rw [hok.head, hdd]
        exact readInto_one b.FF_MAX_SS d sector i _ j hj
      · exact h e h1 d1 hd1 j hj
    | none =>
      have hd2 : get_disc_io b { st.world with cache := st.world.cache } drv = none := hd
      have hstep : disk_read_step b drv sector st i =
          { res := DRESULT.RES_PARERR
            world := { st.world with cache := (cache_load_sector b.FF_MAX_SS
              (cache_store_sector st.world.cache drv (lbaAdd sector i) st.world.working_buf)
              drv (lbaAdd sector i) st.buff (i * b.FF_MAX_SS)).cache }
            buff := (cache_load_sector b.FF_MAX_SS
              (cache_store_sector st.world.cache drv (lbaAdd sector i) st.world.working_buf)
              drv (lbaAdd sector i) st.buff (i * b.FF_MAX_SS)).dst } := by
        unfold disk_read_step
        simp only [load_miss _ _ _ _ _ _ hh, Bool.false_eq_true, if_false]
        unfold disk_read_internal
        simp only [hd2]
      rw [hstep]
      refine ⟨rfl, hok, fun e he d1 hd1 j hj => ?_⟩
      have hd1 : get_disc_io b st.world e.drv = some d1 := hd1
      rcases mem_store _ _ _ _ e (mem_load _ _ _ _ _ _ e he) with h1 | h1
      · subst h1
        rw [hd] at hd1
        cases hd1
      · exact h e h1 d1 hd1 j hj

/-- A `disk_read` all of whose raw reads succeed keeps the cache coherent
(and leaves only successful transfers to come): what makes coherence fail is
only the store that follows a failed read. -/
theorem disk_read_coherent (b : Build) (w : World) (drv : Nat) (buff : Mem)
    (sector count : Nat) (hok : AllOk w.script) (h : Coherent b w) :
    AllOk (disk_read b w drv buff sector count).world.script ∧
    Coherent b (disk_read b w drv buff sector count).world := by
  unfold disk_read
  cases hv : VALID_DISK b drv
  · exact ⟨hok, h⟩
  · rw [if_pos rfl]
    cases hb : b.SLIM_USE_CACHE
    · rw [if_neg (by decide)]
      unfold disk_read_internal
      cases hd : get_disc_io b w drv with
      | none => exact ⟨hok, h⟩
      | some d =>
        refine ⟨?_, fun e he d1 hd1 j hj => ?_⟩
        · have hs := transfer_script w (DevCall.read drv sector count)
          simp only
          rw [hs]
          exact hok.tail
        · have he1 : e ∈ w.cache.entries := by
            have hc := transfer_cache w (DevCall.read drv sector count)
            simp only at he
            rw [hc] at he
            exact he
          have hd2 : get_disc_io b w e.drv = some d1 := by
            rw [← hd1]
            exact get_disc_io_congr b _ _ e.drv (transfer_disc w _).symm
          exact h e he1 d1 hd2 j hj
    · rw [if_pos rfl]
      have hinv := foldl_range_inv (disk_read_step b drv sector)
        (fun _ st => st.world.disc = w.disc ∧ AllOk st.world.script ∧ Coherent b st.world)
        { res := DRESULT.RES_PARERR, world := w, buff := buff } count ⟨rfl, hok, h⟩
        (fun k st _ hst => by
          obtain ⟨h1, h2, h3⟩ := disk_read_step_coherent b drv sector st k hst.2.1 hst.2.2
          exact ⟨h1.trans hst.1, h2, h3⟩)
      exact hinv.2

end Slim
